import Mathlib

/-!
Verification development for `src/server/publish.py` of the
serverless-diffpatcher repository: a shallow embedding in Lean 4 of the
content-addressable store, directory scanner, ignore resolver, patch
generator, version registry and remove operation, together with theorems
settling the specification claims.

Modelling conventions:
* Paths are carried as lists of separator-free components and rendered with
  `renderPath` (joining with "/") exactly where the Python code manipulates
  whole path strings (glob matching, registry keys, upload targets).
* Machine state touched by the program is explicit: the JSON registry file,
  the content store (`storage-<artifact>/...`), and the distributed
  namespace / upload targets are modelled as association lists keyed by the
  same strings the code uses.
* Python dicts are association lists preserving insertion order; dict
  mutation is first-occurrence update, `del` is first-occurrence removal.
* Fallible steps return `Except`; a Python exception that crashes the
  process (`TypeError` on `None`, `NameError` on an unbound loop variable,
  `KeyError`) is an error value carrying the on-disk state at the crash
  point, since `sys.exit`/crash leaves the disk as it is.
-/

namespace Publish

/-- Characters Python's `str.strip()` removes (the ones relevant here). -/
def isPyWS (c : Char) : Bool :=
  c = ' ' || c = '\t' || c = '\n' || c = '\r'

/-- Python `str.strip()` on the character list of a string. -/
def strTrim (s : String) : String :=
  String.mk (((s.data.dropWhile isPyWS).reverse.dropWhile isPyWS).reverse)

/-- Split a character list on a newline character. -/
def splitNl : List Char → List (List Char)
  | [] => [[]]
  | '\n' :: rest => [] :: splitNl rest
  | c :: rest =>
    match splitNl rest with
    | [] => [[c]]
    | l :: ls => (c :: l) :: ls

/-- Python `f.readlines()` on a text file followed by stripping each line:
the lines of the content, without a phantom final line when the content
ends in a newline, and `[]` for empty content. -/
def pyLines (s : String) : List String :=
  if s.data = [] then []
  else
    let parts := splitNl s.data
    let parts := if s.data.getLast? = some '\n' then parts.dropLast else parts
    parts.map (fun l => String.mk l)

/-- Join path components with the canonical separator, mirroring
`os.path.join` on separator-free components. -/
def renderPath : List String → String
  | [] => ""
  | [x] => x
  | x :: rest => x ++ "/" ++ renderPath rest

/-- Length of the common prefix of two component lists. -/
def commonPrefixLen : List String → List String → Nat
  | x :: xs, y :: ys => if x = y then 1 + commonPrefixLen xs ys else 0
  | _, _ => 0

/-- `os.path.relpath` on component lists: strip the common prefix, go up
with ".." for what remains of the start, then down the remaining
components; the empty result is ".". -/
def relpathComps (p s : List String) : List String :=
  let c := commonPrefixLen p s
  let res := List.replicate (s.length - c) ".." ++ p.drop c
  if res = [] then ["."] else res

/-- All suffixes of a character list, longest first. -/
def suffixes : List Char → List (List Char)
  | [] => [[]]
  | c :: cs => (c :: cs) :: suffixes cs

/-- The glob matcher behind Python's `fnmatch.fnmatch` (case-sensitive, as
on Linux): `*` matches any character sequence including separators — the
rest of the pattern may consume any suffix — `?` matches exactly one
character, anything else is literal.  Character classes are not used by
the program and are treated as literals. -/
def globMatch : List Char → List Char → Bool
  | [], cs => cs.isEmpty
  | p :: ps, cs =>
    if p = '*' then (suffixes cs).any fun suf => globMatch ps suf
    else
      match cs with
      | [] => false
      | c :: cs2 => (p = '?' || p = c) && globMatch ps cs2

/-- `fnmatch.fnmatch(name, pattern)`. -/
def fnmatchB (name pat : String) : Bool :=
  globMatch pat.data name.data

/-- An ignore rule: either a bare pattern (the built-in defaults, matched
against the full path string), or a pattern scoped to the directory whose
`.aixignore` file declared it (matched against the path relative to that
directory), as in `Storage.handle_file`. -/
inductive IgnoreRule where
  | plain (pat : String)
  | scoped (dir : List String) (pat : String)
deriving Repr, DecidableEq

/-- The built-in default exclusion patterns appended by
`Storage.handle_dir`. -/
def defaultRules : List IgnoreRule :=
  [.plain "desktop.ini", .plain ".DS_STORE", .plain "*.xpatch"]

/-- The exclusion loop at the top of `Storage.handle_file`: a file is
skipped iff some rule's glob matches (the full path for bare patterns,
the path relative to the declaring directory for scoped ones). -/
def fileExcluded (fileComps : List String) (rules : List IgnoreRule) : Bool :=
  rules.any fun r =>
    match r with
    | .plain pat => fnmatchB (renderPath fileComps) pat
    | .scoped d pat => fnmatchB (renderPath (relpathComps fileComps d)) pat

/-- A pattern with no glob metacharacters. -/
def noWild (ps : List Char) : Bool :=
  ps.all fun c => !(c = '*') && !(c = '?')

theorem globMatch_lit (ps : List Char) (h : noWild ps = true) :
    ∀ cs, globMatch ps cs = true ↔ cs = ps := by
  induction ps with
  | nil =>
    intro cs
    cases cs <;> simp [globMatch, List.isEmpty]
  | cons p ps ih =>
    have hp : ¬(p = '*') ∧ ¬(p = '?') := by
      simp [noWild, List.all_cons] at h
      exact ⟨h.1.1, h.1.2⟩
    have hps : noWild ps = true := by
      simp [noWild, List.all_cons] at h ⊢
      exact h.2
    intro cs
    cases cs with
    | nil => simp [globMatch, hp.1]
    | cons c cs2 =>
      simp only [globMatch, if_neg hp.1]
      rw [Bool.and_eq_true, ih hps cs2]
      constructor
      · rintro ⟨h1, rfl⟩
        rcases Bool.or_eq_true _ _ |>.mp h1 with h2 | h2
        · exact absurd (of_decide_eq_true h2) hp.2
        · rw [of_decide_eq_true h2]
      · rintro h1
        injection h1 with h2 h3
        subst h2; subst h3
        exact ⟨by simp, rfl⟩

theorem globMatch_star (ps cs : List Char) :
    globMatch ('*' :: ps) cs = (suffixes cs).any fun suf => globMatch ps suf := by
  simp [globMatch]

theorem mem_suffixes (cs l : List Char) :
    l ∈ suffixes cs ↔ ∃ xs, cs = xs ++ l := by
  induction cs with
  | nil =>
    simp only [suffixes, List.mem_singleton]
    constructor
    · rintro rfl; exact ⟨[], rfl⟩
    · rintro ⟨xs, hx⟩
      rcases List.append_eq_nil.mp hx.symm with ⟨-, h2⟩
      exact h2
  | cons c cs ih =>
    simp only [suffixes, List.mem_cons, ih]
    constructor
    · rintro (rfl | ⟨xs, rfl⟩)
      · exact ⟨[], rfl⟩
      · exact ⟨c :: xs, rfl⟩
    · rintro ⟨xs, hx⟩
      cases xs with
      | nil => exact Or.inl ((List.nil_append l ▸ hx).symm)
      | cons y ys =>
        injection hx with h1 h2
        exact Or.inr ⟨ys, h2⟩

theorem globMatch_star_lit (ps : List Char) (h : noWild ps = true) :
    ∀ cs, globMatch ('*' :: ps) cs = true ↔ ∃ xs, cs = xs ++ ps := by
  intro cs
  rw [globMatch_star, List.any_eq_true]
  constructor
  · rintro ⟨l, hl, hm⟩
    rw [globMatch_lit ps h] at hm
    subst hm
    exact (mem_suffixes cs l).mp hl
  · rintro ⟨xs, rfl⟩
    exact ⟨ps, (mem_suffixes _ ps).mpr ⟨xs, rfl⟩, (globMatch_lit ps h ps).mpr rfl⟩

theorem strData_inj (a b : String) : a.data = b.data ↔ a = b := by
  constructor
  · intro h; exact congrArg String.mk h
  · intro h; rw [h]

/-- Claim C10: the built-in default ignore patterns are glob-matched
against the file's full path string as handed to the scanner (never
against its basename, never relative to a scope directory): a
wildcard-free default such as `desktop.ini` excludes a file only when the
entire path string equals the pattern, while `*.xpatch` excludes exactly
the files whose full path ends in `.xpatch`. -/
theorem c10_default_patterns (comps : List String) :
    fileExcluded comps defaultRules = true ↔
      renderPath comps = "desktop.ini" ∨ renderPath comps = ".DS_STORE" ∨
      ∃ l, (renderPath comps).data = l ++ (".xpatch").data := by
  have hx : fileExcluded comps defaultRules =
      (fnmatchB (renderPath comps) "desktop.ini" ||
        (fnmatchB (renderPath comps) ".DS_STORE" ||
          (fnmatchB (renderPath comps) "*.xpatch" || false))) := rfl
  have d1 : fnmatchB (renderPath comps) "desktop.ini" = true ↔
      renderPath comps = "desktop.ini" := by
    rw [fnmatchB, globMatch_lit _ (by decide), strData_inj]
  have d2 : fnmatchB (renderPath comps) ".DS_STORE" = true ↔
      renderPath comps = ".DS_STORE" := by
    rw [fnmatchB, globMatch_lit _ (by decide), strData_inj]
  have d3 : fnmatchB (renderPath comps) "*.xpatch" = true ↔
      ∃ l, (renderPath comps).data = l ++ (".xpatch").data := by
    rw [fnmatchB]
    have e1 : ("*.xpatch").data = '*' :: (".xpatch").data := rfl
    rw [e1, globMatch_star_lit (".xpatch").data (by decide)]
  rw [hx]
  simp only [Bool.or_false, Bool.or_eq_true]
  rw [d1, d2, d3]

/-! ## Data model: manifest entries, version records, registry -/

/-- The 4-tuple `(is_new, friendly_path, digest, target_rel_path)` returned
by `Storage.handle_file`; `targetRel` is kept as components and rendered
where the code uses the string. -/
structure Entry where
  is_new : Bool
  path : String
  digest : String
  targetRel : List String
deriving Repr, DecidableEq

/-- One element of `storage_registry["versions"]`. -/
structure VersionRecord where
  version : String
  files : List Entry
deriving Repr, DecidableEq

/-- First-occurrence lookup in an insertion-ordered dict. -/
def lookupKey {α : Type} : List (String × α) → String → Option α
  | [], _ => none
  | (k, v) :: rest, key => if k = key then some v else lookupKey rest key

/-- Dict assignment: update the first occurrence in place, else append. -/
def setKey {α : Type} : List (String × α) → String → α → List (String × α)
  | [], key, v => [(key, v)]
  | (k, v0) :: rest, key, v =>
    if k = key then (key, v) :: rest else (k, v0) :: setKey rest key v

/-- Dict `del` / `os.remove` with `try: ... except: pass`: drop the first
binding of the key, no-op when absent. -/
def eraseKey {α : Type} : List (String × α) → String → List (String × α)
  | [], _ => []
  | (k, v) :: rest, key => if k = key then rest else (k, v) :: eraseKey rest key

def keysOf {α : Type} (m : List (String × α)) : List String := m.map Prod.fst

/-- `storage_registry`: the `versions` list and the
`files : path -> digest -> store_path` two-level dict. -/
structure Registry where
  versions : List VersionRecord
  files : List (String × List (String × String))
deriving Repr, DecidableEq

/-- The registry `Storage.__init__` starts from when no registry file
exists. -/
def emptyRegistry : Registry := ⟨[], []⟩

/-! ## File system trees

A scanned source tree is a forest: a sibling chain in `os.listdir` order
(which the code never sorts), where each node is a file with contents or a
directory with its own child forest.  Names are separator-free. -/

inductive FSNode where
  | nil
  | file (name : String) (content : String) (rest : FSNode)
  | dir (name : String) (entries : FSNode) (rest : FSNode)
deriving Repr, DecidableEq

/-- Reading `<dir>/.aixignore`: the first sibling with that name, if it is
a file, yields its contents. -/
def findAix : FSNode → Option String
  | .nil => none
  | .file name c rest => if name = ".aixignore" then some c else findAix rest
  | .dir name _ rest => if name = ".aixignore" then none else findAix rest

/-- The rules `_handle_dir` appends for one directory: each stripped line
of its `.aixignore`, scoped to that directory. -/
def aixRules (dirComps : List String) (entries : FSNode) : List IgnoreRule :=
  match findAix entries with
  | some c => (pyLines c).map (fun l => .scoped dirComps (strTrim l))
  | none => []

/-- The state threaded through the scan: the single mutable
`ignore_patterns` list (which `_handle_dir` extends in place, so additions
made inside a subtree remain visible to later siblings), the in-memory
registry, and the content-store blobs (target-relative paths). -/
structure ScanSt where
  rules : List IgnoreRule
  reg : Registry
  store : List String
deriving Repr, DecidableEq

/-- `Storage.handle_file` after the exclusion check: digest the contents,
record the logical path in `files`, and when the digest is unknown for
that path copy the blob into the store at `files/<rel-dir>/<name>.<digest>`
and mark the entry new. -/
def handleFileCore (hash : String → String) (storageDir : String)
    (baseComps comps : List String) (content : String) (reg : Registry)
    (store : List String) : Registry × List String × Entry :=
  let digest := hash content
  let friendly := renderPath (relpathComps comps baseComps)
  let files0 :=
    if (lookupKey reg.files friendly).isSome then reg.files
    else setKey reg.files friendly []
  let relDir := relpathComps comps.dropLast baseComps
  let fileName := comps.getLast?.getD ""
  let targetRel := "files" :: relDir ++ [fileName ++ "." ++ digest]
  let cur := (lookupKey files0 friendly).getD []
  if (lookupKey cur digest).isSome then
    ({ reg with files := files0 }, store, ⟨false, friendly, digest, targetRel⟩)
  else
    let fullPath := storageDir ++ "/" ++ renderPath targetRel
    let files1 := setKey files0 friendly (setKey cur digest fullPath)
    let store1 :=
      if renderPath targetRel ∈ store then store
      else store ++ [renderPath targetRel]
    ({ reg with files := files1 }, store1, ⟨true, friendly, digest, targetRel⟩)

/-- `Storage.handle_file`: skip if some ignore rule matches, else process
the file.  The rule list is never modified here. -/
def handleFile (hash : String → String) (storageDir : String)
    (baseComps comps : List String) (content : String) (st : ScanSt) :
    ScanSt × Option Entry :=
  if fileExcluded comps st.rules then (st, none)
  else
    let r := handleFileCore hash storageDir baseComps comps content st.reg st.store
    (⟨st.rules, r.1, r.2.1⟩, some r.2.2)

/-- `Storage._handle_dir`, with the directory-entry loop inlined: a
directory first appends its `.aixignore` rules to the shared rule list,
then handles each entry in listing order, recursing into subdirectories
and collecting the manifest rows of included files. -/
def scanForest (hash : String → String) (storageDir : String)
    (baseComps : List String) :
    FSNode → List String → ScanSt → List Entry × ScanSt
  | .nil, _, st => ([], st)
  | .file name c rest, dirComps, st =>
    let r := handleFile hash storageDir baseComps (dirComps ++ [name]) c st
    let r2 := scanForest hash storageDir baseComps rest dirComps r.1
    (match r.2 with | some e => e :: r2.1 | none => r2.1, r2.2)
  | .dir name es rest, dirComps, st =>
    let st1 := { st with rules := st.rules ++ aixRules (dirComps ++ [name]) es }
    let r1 := scanForest hash storageDir baseComps es (dirComps ++ [name]) st1
    let r2 := scanForest hash storageDir baseComps rest dirComps r1.2
    (r1.1 ++ r2.1, r2.2)

/-- `Storage.handle_dir` on the root directory: start from the built-in
defaults plus the root's own `.aixignore` rules and scan. -/
def handleDir (hash : String → String) (storageDir : String)
    (rootComps : List String) (root : FSNode) (reg : Registry)
    (store : List String) : List Entry × ScanSt :=
  scanForest hash storageDir rootComps root rootComps
    ⟨defaultRules ++ aixRules rootComps root, reg, store⟩

/-! ## Spec-side views of a tree: byte content and listing order -/

/-- All files of a forest as (rendered relative path, contents) pairs, in
listing order. -/
def flattenF : FSNode → List String → List (String × String)
  | .nil, _ => []
  | .file name c rest, pref => (renderPath (pref ++ [name]), c) :: flattenF rest pref
  | .dir name es rest, pref => flattenF es (pref ++ [name]) ++ flattenF rest pref

def charListLe : List Char → List Char → Bool
  | [], _ => true
  | _ :: _, [] => false
  | a :: as, b :: bs => if a = b then charListLe as bs else decide (a < b)

def insertSorted (x : String × String) :
    List (String × String) → List (String × String)
  | [] => [x]
  | y :: ys =>
    if charListLe x.1.data y.1.data then x :: y :: ys else y :: insertSorted x ys

def sortPairs : List (String × String) → List (String × String)
  | [] => []
  | x :: xs => insertSorted x (sortPairs xs)

/-- The byte content of a tree, canonicalized: its path-to-contents map as
a lexicographically sorted list.  Two trees are byte-identical iff their
`treeBytes` agree; the listing order is deliberately not part of it. -/
def treeBytes (t : FSNode) : List (String × String) :=
  sortPairs (flattenF t [])

/-- The depth-first traversal of a forest in listing order: the relative
paths of its files, directories expanded in place. -/
def dfsPaths : FSNode → List String → List String
  | .nil, _ => []
  | .file name _ rest, pref => renderPath (pref ++ [name]) :: dfsPaths rest pref
  | .dir name es rest, pref => dfsPaths es (pref ++ [name]) ++ dfsPaths rest pref

/-- A forest whose scan is undisturbed by the ignore machinery: no
`.aixignore` entries anywhere and no file path matching the built-in
default patterns.  `pref` is the full path prefix of the enclosing
directory as handed to the scanner. -/
def plainForest : FSNode → List String → Bool
  | .nil, _ => true
  | .file name _ rest, pref =>
    (name != ".aixignore") && !fileExcluded (pref ++ [name]) defaultRules &&
      plainForest rest pref
  | .dir name es rest, pref =>
    (name != ".aixignore") && plainForest es (pref ++ [name]) &&
      plainForest rest pref

/-- Claim C2 (code bug witness): the shared mutable `ignore_patterns` list
leaks `.aixignore` rules of a directory into sibling directories scanned
after it.  With siblings `a` (declaring `*.txt`) and `b` (holding
`x.txt`), scanning `a` first excludes `b/x.txt` — `os.path.relpath` gives
`../b/x.txt`, which `*.txt` glob-matches — while the reversed listing
order keeps it, so sibling exclusion depends on traversal order. -/
theorem c2_sibling_leak :
    ((handleDir (fun s => s) "storage-art" ["r"]
        (.dir "a" (.file ".aixignore" "*.txt" .nil)
          (.dir "b" (.file "x.txt" "hello" .nil) .nil))
        emptyRegistry []).1.map Entry.path = ["a/.aixignore"]) ∧
    ((handleDir (fun s => s) "storage-art" ["r"]
        (.dir "b" (.file "x.txt" "hello" .nil)
          (.dir "a" (.file ".aixignore" "*.txt" .nil) .nil))
        emptyRegistry []).1.map Entry.path = ["b/x.txt", "a/.aixignore"]) :=
  ⟨rfl, rfl⟩

/-- Claim C6 (counterexample): two byte-identical trees — same
path-to-contents mapping — whose directory listings come back in
different orders produce manifests in different orders, because
`_handle_dir` iterates `os.listdir` without sorting. -/
theorem c6_counterexample :
    treeBytes (.file "b" "X" (.file "a" "Y" .nil)) =
      treeBytes (.file "a" "Y" (.file "b" "X" .nil)) ∧
    (handleDir (fun s => s) "sd" ["r"] (.file "b" "X" (.file "a" "Y" .nil))
        emptyRegistry []).1.map Entry.path ≠
      (handleDir (fun s => s) "sd" ["r"] (.file "a" "Y" (.file "b" "X" .nil))
        emptyRegistry []).1.map Entry.path := by
  exact ⟨rfl, by decide⟩

theorem commonPrefixLen_append (b r : List String) :
    commonPrefixLen (b ++ r) b = b.length := by
  induction b with
  | nil => cases r <;> rfl
  | cons x xs ih => simp [commonPrefixLen, ih, Nat.add_comm]

theorem relpath_append (b r : List String) (h : r ≠ []) :
    relpathComps (b ++ r) b = r := by
  unfold relpathComps
  rw [commonPrefixLen_append]
  simp [List.drop_left, h]

theorem plainForest_findAix (t : FSNode) (p : List String)
    (h : plainForest t p = true) : findAix t = none := by
  induction t generalizing p with
  | nil => rfl
  | file name c rest ih =>
    simp only [plainForest, Bool.and_eq_true, bne_iff_ne, ne_eq] at h
    simp only [findAix, if_neg h.1.1]
    exact ih p h.2
  | dir name es rest ihes ih =>
    simp only [plainForest, Bool.and_eq_true, bne_iff_ne, ne_eq] at h
    simp only [findAix, if_neg h.1.1]
    exact ih p h.2

theorem handleFile_rules (hash : String → String) (sd : String)
    (baseComps comps : List String) (c : String) (st : ScanSt) :
    ((handleFile hash sd baseComps comps c st).1).rules = st.rules := by
  unfold handleFile
  split <;> rfl

theorem handleFileCore_path (hash : String → String) (sd : String)
    (baseComps comps : List String) (c : String) (reg : Registry)
    (store : List String) :
    ((handleFileCore hash sd baseComps comps c reg store).2.2).path =
      renderPath (relpathComps comps baseComps) := by
  simp only [handleFileCore]
  split <;> split <;> rfl

theorem handleFile_included (hash : String → String) (sd : String)
    (baseComps comps : List String) (c : String) (st : ScanSt)
    (h : fileExcluded comps st.rules = false) :
    (handleFile hash sd baseComps comps c st).2 =
      some (handleFileCore hash sd baseComps comps c st.reg st.store).2.2 := by
  unfold handleFile
  rw [h]
  rfl

/-- The scanner on a plain forest: manifest rows appear exactly in the
depth-first listing order, and the rule list never grows. -/
theorem scanForest_plain_paths (hash : String → String) (sd : String)
    (base : List String) (t : FSNode) :
    ∀ rel st, st.rules = defaultRules →
      plainForest t (base ++ rel) = true →
      (scanForest hash sd base t (base ++ rel) st).1.map Entry.path =
          dfsPaths t rel ∧
        (scanForest hash sd base t (base ++ rel) st).2.rules = defaultRules := by
  induction t with
  | nil => intro rel st h1 _; exact ⟨rfl, h1⟩
  | file name c rest ih =>
    intro rel st h1 h2
    simp only [plainForest, Bool.and_eq_true, bne_iff_ne, ne_eq,
      Bool.not_eq_true'] at h2
    obtain ⟨⟨-, hex⟩, hrest⟩ := h2
    have hex2 : fileExcluded ((base ++ rel) ++ [name]) st.rules = false := by
      rw [h1]; exact hex
    have he := handleFile_included hash sd base ((base ++ rel) ++ [name]) c st hex2
    have hr : ((handleFile hash sd base ((base ++ rel) ++ [name]) c st).1).rules
        = defaultRules := by
      rw [handleFile_rules, h1]
    have hpath : ((handleFileCore hash sd base ((base ++ rel) ++ [name]) c
        st.reg st.store).2.2).path = renderPath (rel ++ [name]) := by
      rw [handleFileCore_path, List.append_assoc,
        relpath_append base (rel ++ [name]) (by simp)]
    obtain ⟨ihp, ihr⟩ :=
      ih rel (handleFile hash sd base ((base ++ rel) ++ [name]) c st).1 hr hrest
    simp only [scanForest, he, List.map_cons, ihp, dfsPaths]
    exact ⟨by rw [hpath], ihr⟩
  | dir name es rest ihes ihrest =>
    intro rel st h1 h2
    simp only [plainForest, Bool.and_eq_true, bne_iff_ne, ne_eq] at h2
    obtain ⟨⟨-, hes⟩, hrest⟩ := h2
    have hfa : findAix es = none := plainForest_findAix es _ hes
    have hax : ∀ q : List String, aixRules q es = [] := by
      intro q; unfold aixRules; rw [hfa]
    have h1b : ({ st with rules := st.rules ++ aixRules ((base ++ rel) ++ [name]) es } :
        ScanSt).rules = defaultRules := by
      simp [hax, h1]
    have hes2 : plainForest es (base ++ (rel ++ [name])) = true := by
      rw [← List.append_assoc]; exact hes
    obtain ⟨ihp1, ihr1⟩ := ihes (rel ++ [name])
      { st with rules := st.rules ++ aixRules ((base ++ rel) ++ [name]) es } h1b hes2
    rw [← List.append_assoc] at ihp1 ihr1
    obtain ⟨ihp2, ihr2⟩ := ihrest rel _ ihr1 hrest
    simp only [scanForest, List.map_append, dfsPaths]
    exact ⟨by rw [ihp1, ihp2], ihr2⟩

/-- Claim C6 (amended): the scanner emits manifest rows in the depth-first
order of the directory listings as returned by the OS (no lexical sorting
is applied); on a tree undisturbed by ignore rules the manifest's logical
paths are exactly `dfsPaths`, so scans are deterministic for identical
listing orders, while byte-identical trees listed in different orders may
produce differently ordered manifests. -/
theorem c6_scan_order (hash : String → String) (sd : String)
    (root : List String) (t : FSNode) (reg : Registry) (store : List String)
    (h : plainForest t root = true) :
    (handleDir hash sd root t reg store).1.map Entry.path = dfsPaths t [] := by
  have h0 : findAix t = none := plainForest_findAix t root h
  have hax : aixRules root t = [] := by unfold aixRules; rw [h0]
  have h2 : plainForest t (root ++ ([] : List String)) = true := by
    rw [List.append_nil]; exact h
  have := (scanForest_plain_paths hash sd root t []
    ⟨defaultRules ++ aixRules root t, reg, store⟩ (by simp [hax]) h2).1
  rw [List.append_nil] at this
  exact this

/-- Concrete instantiation of `c6_scan_order`. -/
theorem c6_scan_order_witness :
    plainForest (.file "f" "c" .nil) ["r"] = true ∧
    (handleDir (fun s => s) "sd" ["r"] (.file "f" "c" .nil) emptyRegistry
        []).1.map Entry.path = dfsPaths (.file "f" "c" .nil) [] :=
  ⟨by decide, c6_scan_order (fun s => s) "sd" ["r"] (.file "f" "c" .nil)
    emptyRegistry [] (by decide)⟩

/-! ## Version removal (`Storage.do_remove`) and the on-disk world -/

/-- Boolean prefix test on character lists. -/
def listHasPre : List Char → List Char → Bool
  | [], _ => true
  | _ :: _, [] => false
  | p :: ps, c :: cs => p = c && listHasPre ps cs

/-- `str.startswith` / path-prefix test. -/
def strStarts (s pre : String) : Bool := listHasPre pre.data s.data

/-- `str.endswith` / suffix test. -/
def strEnds (s suf : String) : Bool :=
  listHasPre suf.data.reverse s.data.reverse

/-- The distributed namespace and the other upload targets, as written by
the offline `upload` closure: a dict from target path to a descriptor of
the bytes put there. -/
abbrev DistFS := List (String × String)

/-- Errors and crashes `do_remove` can produce: `nonHead` is the
`sys.exit(-1)` on a non-latest version; `noPrev` is the `TypeError` crash
of `prev_version["files"]` when the removed record has no predecessor;
`nameErr` is the `NameError` on the glob line when the removed manifest is
empty (the loop variable `new_digest` was never bound); `keyErr` is the
`KeyError` of `files[new_path]` on a missing path. -/
inductive RemoveErr where
  | nonHead
  | noPrev
  | nameErr
  | keyErr
deriving Repr, DecidableEq

/-- `list.remove` on version records: drop the first element equal (by
value) to the argument. -/
def eraseRec : List VersionRecord → VersionRecord → List VersionRecord
  | [], _ => []
  | r :: rest, v => if r = v then rest else r :: eraseRec rest v

/-- The digests of the record preceding the removed one, pooled over all
of its entries regardless of logical path (`prev_version_files` in
`do_remove`). -/
def prevDigestsOf (p : VersionRecord) : List String := p.files.map Entry.digest

/-- `changed_files`: the `(digest, path)` pairs of the removed record's
entries whose digest occurs nowhere in the preceding record. -/
def changedPairs (p v : VersionRecord) : List (String × String) :=
  (v.files.filter fun e => !(decide (e.digest ∈ prevDigestsOf p))).map
    fun e => (e.digest, e.path)

/-- Whether a distributed key is hit by the glob
`update/<artifact>/patch/*_<lastDigest>.xpatch` that `do_remove` runs once,
with `new_digest` left over from the loop (digests contain no underscore,
so the glob hits exactly the patches targeting that one digest). -/
def isRemovedPatchKey (a lastDigest k : String) : Bool :=
  strStarts k ("update/" ++ a ++ "/patch/") &&
    strEnds k ("_" ++ lastDigest ++ ".xpatch")

/-- The registry-files cleanup loop at the end of `do_remove`: for each
changed `(digest, path)`, fetch `files[path]` (a `KeyError` crash if
absent), delete the digest binding if present, then delete the whole
`path` key when what remains is empty or is a lone `latest` marker. -/
def removeDigestsLoop : List (String × List (String × String)) →
    List (String × String) →
    Except RemoveErr (List (String × List (String × String)))
  | files, [] => .ok files
  | files, (d, p) :: rest =>
    match lookupKey files p with
    | none => .error .keyErr
    | some f =>
      let f2 := eraseKey f d
      let files2 :=
        if f2.length = 0 ∨ (f2.length = 1 ∧ (lookupKey f2 "latest").isSome)
        then eraseKey files p else setKey files p f2
      removeDigestsLoop files2 rest

/-- The body of `do_remove` once the loop has found the record carrying
the requested version (`old_version`), with `prev` the record seen on the
previous iteration: drop the record from `versions`, crash if there was no
previous record, delete the distributed manifest, delete the distributed
file object of every changed digest, run the patch glob once for the last
entry's digest, then clean the registry's `files` map. -/
def doRemoveFound (a : String) (reg : Registry) (fs : DistFS)
    (version : String) (prev : Option VersionRecord) (v : VersionRecord) :
    Except (RemoveErr × DistFS) (Registry × DistFS) :=
  let versions2 := eraseRec reg.versions v
  match prev with
  | none => .error (.noPrev, fs)
  | some p =>
    let fs1 := eraseKey fs ("update/" ++ a ++ "/manifest/" ++ version)
    let changed := changedPairs p v
    let fs2 := changed.foldl
      (fun acc dp => eraseKey acc ("update/" ++ a ++ "/files/" ++ dp.1)) fs1
    match v.files.getLast? with
    | none => .error (.nameErr, fs2)
    | some lastE =>
      let fs3 := fs2.filter fun kv => !(isRemovedPatchKey a lastE.digest kv.1)
      match removeDigestsLoop reg.files changed with
      | .error e => .error (e, fs3)
      | .ok files2 => .ok (⟨versions2, files2⟩, fs3)

/-- The search loop of `do_remove` for a specified version: walk the
records in order carrying the previous one; on the first record with the
requested version, fail (before any mutation) unless it equals the last
record, else perform the removal; when no record matches, fall through
with no effect and no error. -/
def doRemoveGo (a : String) (reg : Registry) (fs : DistFS) (version : String) :
    Option VersionRecord → List VersionRecord →
    Except (RemoveErr × DistFS) (Registry × DistFS)
  | _, [] => .ok (reg, fs)
  | prev, v :: rest =>
    if v.version = version then
      if reg.versions.getLast? = some v then
        doRemoveFound a reg fs version prev v
      else .error (.nonHead, fs)
    else doRemoveGo a reg fs version (some v) rest

/-- `Storage.do_remove` with a specified version (confirmation prompt
assumed answered or forced). -/
def doRemoveVersion (a : String) (reg : Registry) (fs : DistFS)
    (version : String) : Except (RemoveErr × DistFS) (Registry × DistFS) :=
  doRemoveGo a reg fs version none reg.versions

/-- The durable state one invocation touches: the registry JSON file, the
content-store blobs and patch files under `storage-<artifact>/`, the
distributed namespace / upload targets, and a counter of registry saves
(each `Storage.save()` bumps it). -/
structure World where
  registryFile : Option Registry
  store : List String
  storePatches : List String
  dist : DistFS
  saves : Nat
deriving Repr, DecidableEq

/-- A remove invocation of `main`: load the registry, run
`Storage.do_remove`, then unconditionally `Storage.save()`.  With no
version this is the full wipe: the registry file, the whole
`storage-<artifact>` tree and the whole `update/<artifact>` tree are
deleted — but the in-memory registry is left as loaded, so the final
`save()` rewrites the registry file with its old contents.  A crash
inside `do_remove` leaves the disk as it was at the crash point and never
reaches `save()`. -/
def removeRun (a : String) (version : Option String) (w : World) :
    Except (RemoveErr × World) World :=
  let reg := w.registryFile.getD emptyRegistry
  match version with
  | none =>
    let w1 : World :=
      { registryFile := none, store := [], storePatches := [],
        dist := w.dist.filter fun kv => !(strStarts kv.1 ("update/" ++ a ++ "/")),
        saves := w.saves }
    .ok { w1 with registryFile := some reg, saves := w1.saves + 1 }
  | some ver =>
    match doRemoveVersion a reg w.dist ver with
    | .ok rd =>
      .ok { w with registryFile := some rd.1, dist := rd.2,
                   saves := w.saves + 1 }
    | .error ed => .error (ed.1, { w with dist := ed.2 })

/-- Claim C8 (code bug witness): removing the head of a registry whose
`versions` holds exactly one record crashes: `prev_version` is still
`None` when `prev_version["files"]` is evaluated (`TypeError`), instead
of treating the prior digest set as empty; the run aborts with the
version record already dropped in memory, the disk untouched and the
registry file never rewritten. -/
theorem c8_single_version_crash :
    removeRun "art" (some "1")
      ⟨some ⟨[⟨"1", [⟨true, "a.txt", "D1", ["files", ".", "a.txt.D1"]⟩]⟩],
          [("a.txt", [("D1", "storage-art/files/./a.txt.D1")])]⟩,
        ["files/./a.txt.D1"], [],
        [("update/art/files/D1", "blob"), ("update/art/manifest/1", "m"),
          ("update/art/latest", "1")], 0⟩ =
      .error (.noPrev,
        ⟨some ⟨[⟨"1", [⟨true, "a.txt", "D1", ["files", ".", "a.txt.D1"]⟩]⟩],
            [("a.txt", [("D1", "storage-art/files/./a.txt.D1")])]⟩,
          ["files/./a.txt.D1"], [],
          [("update/art/files/D1", "blob"), ("update/art/manifest/1", "m"),
            ("update/art/latest", "1")], 0⟩) := rfl

/-- Claim C4 (counterexample): asking to remove a version that does not
occur in the registry at all — which is in particular not the head's
version — does not fail: the search loop falls through, `do_remove`
returns silently, and the run even saves the registry and exits 0,
whereas the claim requires a `NonHeadRemoval` failure. -/
theorem c4_counterexample :
    removeRun "art" (some "2")
      ⟨some ⟨[⟨"1", [⟨true, "a.txt", "D1", ["files", ".", "a.txt.D1"]⟩]⟩],
          [("a.txt", [("D1", "sp")])]⟩, [], [], [], 0⟩ =
      .ok ⟨some ⟨[⟨"1", [⟨true, "a.txt", "D1", ["files", ".", "a.txt.D1"]⟩]⟩],
          [("a.txt", [("D1", "sp")])]⟩, [], [], [], 1⟩ := rfl

theorem doRemoveGo_find (a : String) (reg : Registry) (fs : DistFS)
    (ver : String) (l : List VersionRecord) :
    ∀ prev,
      (∀ r, l.find? (fun r2 => r2.version == ver) = some r →
        reg.versions.getLast? ≠ some r →
        doRemoveGo a reg fs ver prev l = .error (.nonHead, fs)) ∧
      (l.find? (fun r2 => r2.version == ver) = none →
        doRemoveGo a reg fs ver prev l = .ok (reg, fs)) := by
  induction l with
  | nil =>
    intro prev
    refine ⟨fun r h => ?_, fun _ => rfl⟩
    simp [List.find?] at h
  | cons v rest ih =>
    intro prev
    constructor
    · intro r hf hl
      by_cases hv : v.version = ver
      · rw [List.find?_cons_of_pos _ (by simpa using hv)] at hf
        injection hf with hf
        subst hf
        simp only [doRemoveGo, if_pos hv, if_neg hl]
      · rw [List.find?_cons_of_neg _ (by simpa using hv)] at hf
        simp only [doRemoveGo, if_neg hv]
        exact (ih (some v)).1 r hf hl
    · intro hf
      by_cases hv : v.version = ver
      · rw [List.find?_cons_of_pos _ (by simpa using hv)] at hf
        exact absurd hf (by simp)
      · rw [List.find?_cons_of_neg _ (by simpa using hv)] at hf
        simp only [doRemoveGo, if_neg hv]
        exact (ih (some v)).2 hf

/-- Claim C4 (amended): removing a specified version that occurs in the
registry but whose first matching record is not the head record fails
with the non-head error and mutates nothing — the run aborts with the
world exactly as before; removing a version that occurs nowhere in the
registry is a silent no-op: no error is reported, nothing is deleted, and
the unchanged registry is rewritten to disk. -/
theorem c4_nonhead_behavior (a : String) (w : World) (reg : Registry)
    (ver : String) (hreg : w.registryFile = some reg) :
    (∀ r, reg.versions.find? (fun r2 => r2.version == ver) = some r →
      reg.versions.getLast? ≠ some r →
      removeRun a (some ver) w = .error (.nonHead, w)) ∧
    (reg.versions.find? (fun r2 => r2.version == ver) = none →
      removeRun a (some ver) w =
        .ok { w with registryFile := some reg, saves := w.saves + 1 }) := by
  have hload : w.registryFile.getD emptyRegistry = reg := by rw [hreg]; rfl
  constructor
  · intro r hf hl
    have he := (doRemoveGo_find a reg w.dist ver reg.versions none).1 r hf hl
    simp only [removeRun, hload, doRemoveVersion, he]
  · intro hf
    have he := (doRemoveGo_find a reg w.dist ver reg.versions none).2 hf
    simp only [removeRun, hload, doRemoveVersion, he]

/-- Concrete instantiation of `c4_nonhead_behavior`: with two records the
non-head version "1" is refused with no mutation, and the absent version
"3" is silently ignored. -/
theorem c4_nonhead_behavior_witness :
    removeRun "art" (some "1")
      ⟨some ⟨[⟨"1", []⟩, ⟨"2", []⟩], []⟩, [], [],
        [("update/art/latest", "2")], 0⟩ =
      .error (.nonHead,
        ⟨some ⟨[⟨"1", []⟩, ⟨"2", []⟩], []⟩, [], [],
          [("update/art/latest", "2")], 0⟩) :=
  (c4_nonhead_behavior "art"
    ⟨some ⟨[⟨"1", []⟩, ⟨"2", []⟩], []⟩, [], [],
      [("update/art/latest", "2")], 0⟩
    ⟨[⟨"1", []⟩, ⟨"2", []⟩], []⟩ "1" rfl).1 ⟨"1", []⟩ (by decide) (by decide)

/-- Claim C5 (code bug witness): the full wipe deletes the registry file,
the `storage-<artifact>` tree and the `update/<artifact>` namespace, but
`main` then calls `storage.save()` on the untouched in-memory registry,
so the registry file persisted at the end of the remove run is the old
non-empty registry, not an empty one. -/
theorem c5_wipe_resurrects_registry :
    removeRun "art" none
      ⟨some ⟨[⟨"1", [⟨true, "a.txt", "D1", ["files", ".", "a.txt.D1"]⟩]⟩],
          [("a.txt", [("D1", "sp")])]⟩,
        ["files/./a.txt.D1"], ["D0_D1.xpatch"],
        [("update/art/files/D1", "blob"), ("update/other/files/Z", "z")],
        0⟩ =
      .ok ⟨some ⟨[⟨"1", [⟨true, "a.txt", "D1", ["files", ".", "a.txt.D1"]⟩]⟩],
          [("a.txt", [("D1", "sp")])]⟩,
        [], [], [("update/other/files/Z", "z")], 1⟩ ∧
    (⟨[⟨"1", [⟨true, "a.txt", "D1", ["files", ".", "a.txt.D1"]⟩]⟩],
        [("a.txt", [("D1", "sp")])]⟩ : Registry) ≠ emptyRegistry :=
  ⟨rfl, by decide⟩

/-! ## Association-list lemmas for the removal characterization -/

theorem mem_keysOf {α : Type} (m : List (String × α)) (k : String) (c : α)
    (h : (k, c) ∈ m) : k ∈ keysOf m :=
  List.mem_map.mpr ⟨(k, c), h, rfl⟩

theorem lookupKey_eq_none {α : Type} (m : List (String × α)) (k : String)
    (h : k ∉ keysOf m) : lookupKey m k = none := by
  induction m with
  | nil => rfl
  | cons kv rest ih =>
    obtain ⟨k1, v1⟩ := kv
    simp only [keysOf, List.map_cons, List.mem_cons, not_or] at h
    simp only [lookupKey, if_neg (fun hh : k1 = k => h.1 hh.symm)]
    exact ih h.2

theorem mem_eraseKey_of_nodup {α : Type} (m : List (String × α))
    (k0 k : String) (c : α) (h : (keysOf m).Nodup) :
    (k, c) ∈ eraseKey m k0 ↔ (k, c) ∈ m ∧ k ≠ k0 := by
  induction m with
  | nil => simp [eraseKey]
  | cons kv rest ih =>
    obtain ⟨k1, v1⟩ := kv
    simp only [keysOf, List.map_cons, List.nodup_cons] at h
    obtain ⟨hk1, hrest⟩ := h
    by_cases he : k1 = k0
    · subst he
      simp only [eraseKey, if_pos rfl]
      constructor
      · intro hm
        refine ⟨List.mem_cons_of_mem _ hm, fun hk => ?_⟩
        subst hk
        exact hk1 (mem_keysOf rest k c hm)
      · rintro ⟨hm, hne⟩
        rcases List.mem_cons.mp hm with h2 | h2
        · exact absurd (congrArg Prod.fst h2) hne
        · exact h2
    · simp only [eraseKey, if_neg he, List.mem_cons, ih hrest]
      constructor
      · rintro (h2 | ⟨h2, h3⟩)
        · have hk : k = k1 := congrArg Prod.fst h2
          exact ⟨Or.inl h2, by rw [hk]; exact he⟩
        · exact ⟨Or.inr h2, h3⟩
      · rintro ⟨h2 | h2, h3⟩
        · exact Or.inl h2
        · exact Or.inr ⟨h2, h3⟩

theorem keysOf_eraseKey_sublist {α : Type} (m : List (String × α))
    (k0 : String) : List.Sublist (keysOf (eraseKey m k0)) (keysOf m) := by
  induction m with
  | nil => simp [eraseKey, keysOf]
  | cons kv rest ih =>
    obtain ⟨k1, v1⟩ := kv
    by_cases he : k1 = k0
    · simp only [eraseKey, if_pos he, keysOf, List.map_cons]
      exact (List.sublist_cons_self k1 (keysOf rest)).trans (List.Sublist.refl _)
    · simp only [eraseKey, if_neg he, keysOf, List.map_cons]
      exact List.Sublist.cons₂ k1 ih

theorem nodup_keysOf_eraseKey {α : Type} (m : List (String × α)) (k0 : String)
    (h : (keysOf m).Nodup) : (keysOf (eraseKey m k0)).Nodup :=
  h.sublist (keysOf_eraseKey_sublist m k0)

theorem lookupKey_eraseKey_ne {α : Type} (m : List (String × α))
    (k0 k : String) (h : k ≠ k0) :
    lookupKey (eraseKey m k0) k = lookupKey m k := by
  induction m with
  | nil => rfl
  | cons kv rest ih =>
    obtain ⟨k1, v1⟩ := kv
    by_cases he : k1 = k0
    · subst he
      simp only [eraseKey, eq_self_iff_true, if_true, lookupKey,
        if_neg (fun hh : k1 = k => h hh.symm)]
    · simp only [eraseKey, if_neg he, lookupKey]
      by_cases h2 : k1 = k
      · rw [if_pos h2, if_pos h2]
      · rw [if_neg h2, if_neg h2, ih]

theorem lookupKey_eraseKey_self {α : Type} (m : List (String × α))
    (k0 : String) (h : (keysOf m).Nodup) :
    lookupKey (eraseKey m k0) k0 = none := by
  induction m with
  | nil => rfl
  | cons kv rest ih =>
    obtain ⟨k1, v1⟩ := kv
    simp only [keysOf, List.map_cons, List.nodup_cons] at h
    obtain ⟨hk1, hrest⟩ := h
    by_cases he : k1 = k0
    · subst he
      simp only [eraseKey, if_pos rfl]
      exact lookupKey_eq_none rest k1 hk1
    · simp only [eraseKey, if_neg he, lookupKey, if_neg he]
      exact ih hrest

theorem lookupKey_setKey_self {α : Type} (m : List (String × α))
    (k0 : String) (x : α) : lookupKey (setKey m k0 x) k0 = some x := by
  induction m with
  | nil => simp [setKey, lookupKey]
  | cons kv rest ih =>
    obtain ⟨k1, v1⟩ := kv
    by_cases he : k1 = k0
    · simp [setKey, if_pos he, lookupKey]
    · simp only [setKey, if_neg he, lookupKey, if_neg he]
      exact ih

theorem lookupKey_setKey_ne {α : Type} (m : List (String × α))
    (k0 k : String) (x : α) (h : k ≠ k0) :
    lookupKey (setKey m k0 x) k = lookupKey m k := by
  induction m with
  | nil => simp [setKey, lookupKey, if_neg (fun hh : k0 = k => h hh.symm)]
  | cons kv rest ih =>
    obtain ⟨k1, v1⟩ := kv
    by_cases he : k1 = k0
    · subst he
      simp only [setKey, if_pos rfl, lookupKey,
        if_neg (fun hh : k1 = k => h hh.symm)]
    · simp only [setKey, if_neg he, lookupKey]
      by_cases h2 : k1 = k
      · rw [if_pos h2, if_pos h2]
      · rw [if_neg h2, if_neg h2, ih]

theorem keysOf_setKey_present {α : Type} (m : List (String × α))
    (k0 : String) (x : α) (h : (lookupKey m k0).isSome) :
    keysOf (setKey m k0 x) = keysOf m := by
  induction m with
  | nil => simp [lookupKey] at h
  | cons kv rest ih =>
    obtain ⟨k1, v1⟩ := kv
    by_cases he : k1 = k0
    · simp only [setKey, he, eq_self_iff_true, if_true, keysOf, List.map_cons]
    · simp only [lookupKey, if_neg he] at h
      simp only [setKey, if_neg he, keysOf, List.map_cons]
      have h2 := ih h
      simp only [keysOf] at h2
      rw [h2]

theorem mem_foldl_eraseKey {α β : Type} (g : β → String) :
    ∀ (ks : List β) (m : List (String × α)), (keysOf m).Nodup →
      ∀ k c, ((k, c) ∈ ks.foldl (fun acc x => eraseKey acc (g x)) m ↔
        (k, c) ∈ m ∧ ∀ x ∈ ks, k ≠ g x) := by
  intro ks
  induction ks with
  | nil => intro m _ k c; simp
  | cons x xs ih =>
    intro m h k c
    rw [List.foldl_cons,
      ih (eraseKey m (g x)) (nodup_keysOf_eraseKey m (g x) h) k c,
      mem_eraseKey_of_nodup m (g x) k c h]
    constructor
    · rintro ⟨⟨h1, h2⟩, h3⟩
      refine ⟨h1, fun y hy => ?_⟩
      rcases List.mem_cons.mp hy with rfl | hy2
      · exact h2
      · exact h3 y hy2
    · rintro ⟨h1, h2⟩
      exact ⟨⟨h1, h2 x (List.mem_cons_self x xs)⟩,
        fun y hy => h2 y (List.mem_cons_of_mem x hy)⟩

theorem eraseRec_append_of_ne (l1 l2 : List VersionRecord) (v : VersionRecord)
    (h : ∀ r ∈ l1, r ≠ v) : eraseRec (l1 ++ l2) v = l1 ++ eraseRec l2 v := by
  induction l1 with
  | nil => rfl
  | cons x xs ih =>
    have hx : x ≠ v := h x (List.mem_cons_self x xs)
    simp only [List.cons_append, eraseRec, if_neg hx, List.append_eq]
    rw [ih (fun r hr => h r (List.mem_cons_of_mem x hr))]

theorem removeDigestsLoop_spec :
    ∀ (changed : List (String × String))
      (files : List (String × List (String × String))),
      (keysOf files).Nodup →
      (changed.map Prod.snd).Nodup →
      (∀ dp ∈ changed, (lookupKey files dp.2).isSome) →
      ∃ files2, removeDigestsLoop files changed = .ok files2 ∧
        (∀ q, q ∉ changed.map Prod.snd →
          lookupKey files2 q = lookupKey files q) ∧
        (∀ dp ∈ changed, ∀ f, lookupKey files dp.2 = some f →
          lookupKey files2 dp.2 =
            (if (eraseKey f dp.1).length = 0 ∨
                ((eraseKey f dp.1).length = 1 ∧
                  (lookupKey (eraseKey f dp.1) "latest").isSome)
              then none else some (eraseKey f dp.1))) := by
  intro changed
  induction changed with
  | nil =>
    intro files _ _ _
    exact ⟨files, rfl, fun q _ => rfl, fun dp h => absurd h (List.not_mem_nil dp)⟩
  | cons dp0 rest ih =>
    obtain ⟨d, p⟩ := dp0
    intro files hnd hpaths hpres
    obtain ⟨f0, hf0⟩ :=
      Option.isSome_iff_exists.mp (hpres (d, p) (List.mem_cons_self _ _))
    simp only [List.map_cons, List.nodup_cons] at hpaths
    obtain ⟨hpout, hpnd⟩ := hpaths
    have hrestne : ∀ dp ∈ rest, dp.2 ≠ p := by
      intro dp hdp hq
      exact hpout (hq ▸ List.mem_map.mpr ⟨dp, hdp, rfl⟩)
    by_cases hc : (eraseKey f0 d).length = 0 ∨
        ((eraseKey f0 d).length = 1 ∧
          (lookupKey (eraseKey f0 d) "latest").isSome)
    · -- the path key is dropped entirely
      have hstep : removeDigestsLoop files ((d, p) :: rest) =
          removeDigestsLoop (eraseKey files p) rest := by
        simp only [removeDigestsLoop, hf0, if_pos hc]
      have hnd1 := nodup_keysOf_eraseKey files p hnd
      have hpres1 : ∀ dp ∈ rest, (lookupKey (eraseKey files p) dp.2).isSome := by
        intro dp hdp
        rw [lookupKey_eraseKey_ne files p dp.2 (hrestne dp hdp)]
        exact hpres dp (List.mem_cons_of_mem _ hdp)
      obtain ⟨files2, hrun, hother, hchanged⟩ := ih (eraseKey files p) hnd1 hpnd hpres1
      refine ⟨files2, hstep.trans hrun, ?_, ?_⟩
      · intro q hq
        simp only [List.map_cons, List.mem_cons, not_or] at hq
        rw [hother q hq.2, lookupKey_eraseKey_ne files p q hq.1]
      · intro dp hdp f hf
        rcases List.mem_cons.mp hdp with rfl | hdp2
        · have hff : f = f0 := by
            rw [hf0] at hf; exact (Option.some.injEq _ _ ▸ hf.symm :)
          subst hff
          rw [if_pos hc]
          rw [hother p hpout, lookupKey_eraseKey_self files p hnd]
        · refine (hchanged dp hdp2 f ?_)
          rw [lookupKey_eraseKey_ne files p dp.2 (hrestne dp hdp2)]
          exact hf
    · -- the digest binding is removed, the path key stays
      have hstep : removeDigestsLoop files ((d, p) :: rest) =
          removeDigestsLoop (setKey files p (eraseKey f0 d)) rest := by
        simp only [removeDigestsLoop, hf0, if_neg hc]
      have hnd1 : (keysOf (setKey files p (eraseKey f0 d))).Nodup := by
        rw [keysOf_setKey_present files p _ (by rw [hf0]; rfl)]
        exact hnd
      have hpres1 : ∀ dp ∈ rest,
          (lookupKey (setKey files p (eraseKey f0 d)) dp.2).isSome := by
        intro dp hdp
        rw [lookupKey_setKey_ne files p dp.2 _ (hrestne dp hdp)]
        exact hpres dp (List.mem_cons_of_mem _ hdp)
      obtain ⟨files2, hrun, hother, hchanged⟩ :=
        ih (setKey files p (eraseKey f0 d)) hnd1 hpnd hpres1
      refine ⟨files2, hstep.trans hrun, ?_, ?_⟩
      · intro q hq
        simp only [List.map_cons, List.mem_cons, not_or] at hq
        rw [hother q hq.2, lookupKey_setKey_ne files p q _ hq.1]
      · intro dp hdp f hf
        rcases List.mem_cons.mp hdp with rfl | hdp2
        · have hff : f = f0 := by
            rw [hf0] at hf; exact (Option.some.injEq _ _ ▸ hf.symm :)
          subst hff
          rw [if_neg hc]
          rw [hother p hpout, lookupKey_setKey_self files p _]
        · refine (hchanged dp hdp2 f ?_)
          rw [lookupKey_setKey_ne files p dp.2 _ (hrestne dp hdp2)]
          exact hf

theorem doRemoveGo_walk (a : String) (reg : Registry) (fs : DistFS)
    (ver : String) (l1 : List VersionRecord) (p v : VersionRecord) :
    ∀ prev, (∀ r ∈ l1 ++ [p], r.version ≠ ver) →
      doRemoveGo a reg fs ver prev (l1 ++ [p, v]) =
        doRemoveGo a reg fs ver (some p) [v] := by
  induction l1 with
  | nil =>
    intro prev h
    have hp : p.version ≠ ver := h p (by simp)
    simp only [List.nil_append, doRemoveGo, if_neg hp]
  | cons x xs ih =>
    intro prev h
    have hx : x.version ≠ ver := h x (by simp)
    simp only [List.cons_append, doRemoveGo, if_neg hx]
    exact ih (some x) (fun r hr => h r (List.mem_cons_of_mem x hr))

/-- Claim C1 (amended): successfully removing the head version when at
least one record precedes it behaves as follows.  A manifest entry of the
removed record counts as introduced by it iff its digest occurs nowhere in
the immediately preceding record (pooled over all logical paths, not per
path).  For each such entry the distributed `files/<digest>` object is
deleted; the Content Store retains every blob and patch file.  The
distributed manifest of the removed version is deleted.  Distributed
patch artifacts are deleted only when their target digest equals the
digest of the removed record's *last* manifest entry (the glob runs once,
outside the entry loop).  In the registry, each changed entry's digest is
removed from `files[path]`, and the `path` key is deleted iff what
remains is empty or a lone `latest` binding.  The head record is dropped
and the registry is saved. -/
theorem c1_head_removal (a : String) (w : World) (reg : Registry)
    (vs : List VersionRecord) (p v : VersionRecord)
    (hreg : w.registryFile = some reg)
    (hv : reg.versions = vs ++ [p, v])
    (hver : ∀ r ∈ vs ++ [p], r.version ≠ v.version)
    (hfiles : v.files ≠ [])
    (hdist : (keysOf w.dist).Nodup)
    (hkeys : (keysOf reg.files).Nodup)
    (hpaths : ((changedPairs p v).map Prod.snd).Nodup)
    (hpresent : ∀ dp ∈ changedPairs p v, (lookupKey reg.files dp.2).isSome) :
    ∃ reg2 dist2,
      removeRun a (some v.version) w =
        .ok { w with registryFile := some reg2, dist := dist2,
                     saves := w.saves + 1 } ∧
      reg2.versions = vs ++ [p] ∧
      (∀ k c, (k, c) ∈ dist2 ↔ ((k, c) ∈ w.dist ∧
        k ≠ "update/" ++ a ++ "/manifest/" ++ v.version ∧
        (∀ dp ∈ changedPairs p v, k ≠ "update/" ++ a ++ "/files/" ++ dp.1) ∧
        ¬isRemovedPatchKey a ((v.files.getLast?.map Entry.digest).getD "") k
          = true)) ∧
      (∀ q, q ∉ (changedPairs p v).map Prod.snd →
        lookupKey reg2.files q = lookupKey reg.files q) ∧
      (∀ dp ∈ changedPairs p v, ∀ f, lookupKey reg.files dp.2 = some f →
        lookupKey reg2.files dp.2 =
          (if (eraseKey f dp.1).length = 0 ∨
              ((eraseKey f dp.1).length = 1 ∧
                (lookupKey (eraseKey f dp.1) "latest").isSome)
            then none else some (eraseKey f dp.1))) := by
  have hlast : reg.versions.getLast? = some v := by
    rw [hv, show vs ++ [p, v] = (vs ++ [p]) ++ [v] by simp,
      List.getLast?_concat]
  obtain ⟨lastE, hlastE⟩ :=
    Option.isSome_iff_exists.mp (List.getLast?_isSome.mpr hfiles)
  obtain ⟨files2, hrun, hother, hchanged⟩ :=
    removeDigestsLoop_spec (changedPairs p v) reg.files hkeys hpaths hpresent
  have hrecne : ∀ r ∈ vs ++ [p], r ≠ v := fun r hr hrv => hver r hr (by rw [hrv])
  have hrec : eraseRec reg.versions v = vs ++ [p] := by
    rw [hv, show vs ++ [p, v] = (vs ++ [p]) ++ [v] by simp,
      eraseRec_append_of_ne _ _ _ hrecne]
    simp [eraseRec]
  have hfound : doRemoveFound a reg w.dist v.version (some p) v =
      .ok (⟨vs ++ [p], files2⟩,
        ((changedPairs p v).foldl
          (fun acc dp => eraseKey acc ("update/" ++ a ++ "/files/" ++ dp.1))
          (eraseKey w.dist ("update/" ++ a ++ "/manifest/" ++ v.version))).filter
            fun kv => !(isRemovedPatchKey a lastE.digest kv.1)) := by
    simp only [doRemoveFound, hlastE, hrun, hrec]
  have hgo : doRemoveVersion a reg w.dist v.version =
      .ok (⟨vs ++ [p], files2⟩,
        ((changedPairs p v).foldl
          (fun acc dp => eraseKey acc ("update/" ++ a ++ "/files/" ++ dp.1))
          (eraseKey w.dist ("update/" ++ a ++ "/manifest/" ++ v.version))).filter
            fun kv => !(isRemovedPatchKey a lastE.digest kv.1)) := by
    rw [doRemoveVersion, hv,
      doRemoveGo_walk a reg w.dist v.version vs p v none hver]
    simp only [doRemoveGo, hlast, eq_self_iff_true, if_true]
    exact hfound
  have hload : w.registryFile.getD emptyRegistry = reg := by rw [hreg]; rfl
  refine ⟨⟨vs ++ [p], files2⟩,
    ((changedPairs p v).foldl
      (fun acc dp => eraseKey acc ("update/" ++ a ++ "/files/" ++ dp.1))
      (eraseKey w.dist ("update/" ++ a ++ "/manifest/" ++ v.version))).filter
        (fun kv => !(isRemovedPatchKey a lastE.digest kv.1)),
    ?_, rfl, ?_, hother, hchanged⟩
  · simp only [removeRun, hload, hgo]
  · intro k c
    rw [List.mem_filter,
      mem_foldl_eraseKey (fun dp => "update/" ++ a ++ "/files/" ++ dp.1)
        (changedPairs p v)
        (eraseKey w.dist ("update/" ++ a ++ "/manifest/" ++ v.version))
        (nodup_keysOf_eraseKey _ _ hdist) k c,
      mem_eraseKey_of_nodup w.dist ("update/" ++ a ++ "/manifest/" ++ v.version)
        k c hdist]
    simp only [hlastE, Option.map_some', Option.getD_some, Bool.not_eq_true']
    constructor
    · rintro ⟨⟨⟨h1, h2⟩, h3⟩, h4⟩
      exact ⟨h1, h2, h3, by rw [h4]; exact Bool.false_ne_true⟩
    · rintro ⟨h1, h2, h3, h4⟩
      exact ⟨⟨⟨h1, h2⟩, h3⟩, by
        cases hb : isRemovedPatchKey a lastE.digest k
        · rfl
        · exact absurd hb h4⟩

/-- Claim C1 (counterexample): remove the head version "2" of a registry
whose head introduced digests D2 (for `a`) and E2 (for `b`) over a prior
version holding D1 and E1.  The removal succeeds, yet the distributed
patch `D1_D2.xpatch` — whose target digest D2 belongs to a removed entry —
survives (the glob runs only for the last entry's digest E2), and the
Content Store still holds the removed blob `files/./a.D2` and the patch
file `D1_D2.xpatch` (the store is never touched), contradicting the
claimed deletion of every such patch artifact and of the blob from the
Content Store. -/
theorem c1_counterexample :
    (match removeRun "art" (some "2")
        ⟨some ⟨[⟨"1", [⟨true, "a", "D1", ["files", ".", "a.D1"]⟩,
                  ⟨true, "b", "E1", ["files", ".", "b.E1"]⟩]⟩,
                ⟨"2", [⟨true, "a", "D2", ["files", ".", "a.D2"]⟩,
                  ⟨true, "b", "E2", ["files", ".", "b.E2"]⟩]⟩],
               [("a", [("D1", "s/a.D1"), ("D2", "s/a.D2")]),
                ("b", [("E1", "s/b.E1"), ("E2", "s/b.E2")])]⟩,
          ["files/./a.D1", "files/./b.E1", "files/./a.D2", "files/./b.E2"],
          ["D1_D2.xpatch", "E1_E2.xpatch"],
          [("update/art/manifest/1", "m1"), ("update/art/manifest/2", "m2"),
           ("update/art/files/D1", "x"), ("update/art/files/E1", "x"),
           ("update/art/files/D2", "x"), ("update/art/files/E2", "x"),
           ("update/art/patch/D1_D2.xpatch", "p"),
           ("update/art/patch/E1_E2.xpatch", "p")], 0⟩ with
      | .ok w2 =>
        decide (("update/art/patch/D1_D2.xpatch", "p") ∈ w2.dist) &&
          decide ("files/./a.D2" ∈ w2.store) &&
          decide ("D1_D2.xpatch" ∈ w2.storePatches)
      | .error _ => false) = true := rfl

/-- Concrete instantiation of `c1_head_removal`: removing head "2" above
prior "1", with one changed entry `(D2, a)`. -/
theorem c1_head_removal_witness :
    ∃ reg2 dist2,
      removeRun "art" (some "2")
        ⟨some ⟨[⟨"1", [⟨true, "a", "D1", ["files", ".", "a.D1"]⟩]⟩,
                ⟨"2", [⟨true, "a", "D2", ["files", ".", "a.D2"]⟩]⟩],
               [("a", [("D1", "s1"), ("D2", "s2")])]⟩,
          ["files/./a.D1", "files/./a.D2"], [],
          [("update/art/manifest/2", "m"), ("update/art/files/D2", "x")],
          0⟩ =
        .ok ⟨some reg2, ["files/./a.D1", "files/./a.D2"], [], dist2, 1⟩ ∧
      reg2.versions = [⟨"1", [⟨true, "a", "D1", ["files", ".", "a.D1"]⟩]⟩] ∧
      (∀ k c, (k, c) ∈ dist2 ↔
        ((k, c) ∈ ([("update/art/manifest/2", "m"),
            ("update/art/files/D2", "x")] : DistFS) ∧
          k ≠ "update/art/manifest/2" ∧
          (∀ dp ∈ ([("D2", "a")] : List (String × String)),
            k ≠ "update/art/files/" ++ dp.1) ∧
          ¬isRemovedPatchKey "art" "D2" k = true)) ∧
      (∀ q, q ∉ (["a"] : List String) →
        lookupKey reg2.files q =
          lookupKey [("a", [("D1", "s1"), ("D2", "s2")])] q) ∧
      (∀ dp ∈ ([("D2", "a")] : List (String × String)), ∀ f,
        lookupKey [("a", [("D1", "s1"), ("D2", "s2")])] dp.2 = some f →
        lookupKey reg2.files dp.2 =
          (if (eraseKey f dp.1).length = 0 ∨
              ((eraseKey f dp.1).length = 1 ∧
                (lookupKey (eraseKey f dp.1) "latest").isSome)
            then none else some (eraseKey f dp.1))) :=
  c1_head_removal "art"
    ⟨some ⟨[⟨"1", [⟨true, "a", "D1", ["files", ".", "a.D1"]⟩]⟩,
            ⟨"2", [⟨true, "a", "D2", ["files", ".", "a.D2"]⟩]⟩],
           [("a", [("D1", "s1"), ("D2", "s2")])]⟩,
      ["files/./a.D1", "files/./a.D2"], [],
      [("update/art/manifest/2", "m"), ("update/art/files/D2", "x")], 0⟩
    ⟨[⟨"1", [⟨true, "a", "D1", ["files", ".", "a.D1"]⟩]⟩,
      ⟨"2", [⟨true, "a", "D2", ["files", ".", "a.D2"]⟩]⟩],
     [("a", [("D1", "s1"), ("D2", "s2")])]⟩
    [] ⟨"1", [⟨true, "a", "D1", ["files", ".", "a.D1"]⟩]⟩
    ⟨"2", [⟨true, "a", "D2", ["files", ".", "a.D2"]⟩]⟩
    rfl rfl (by decide) (by decide) (by decide) (by decide) (by decide)
    (by decide)

/-! ## Patch generation (`Storage.generate_patch`) -/

/-- `Storage.generate_patch`: run the external delta primitive
(`bsdiff4.file_diff`), then `assert os.path.exists(patch_path)`.
`diffOutput` models what the primitive materialized: `none` when no patch
file appeared, `some bytes` when a file with those bytes (possibly empty)
exists.  The assert tests only existence, so an empty file passes and the
patch path is returned. -/
def generate_patch (storageDir saveName : String)
    (diffOutput : Option String) : Except String String :=
  match diffOutput with
  | none => .error ("Patch file to " ++ saveName ++ " not generated!")
  | some _ => .ok (storageDir ++ "/patches/" ++ saveName)

def exceptIsOk {ε α : Type} : Except ε α → Bool
  | .ok _ => true
  | .error _ => false

/-- Claim C7 (counterexample): a delta run that materializes an *empty*
patch file passes `generate_patch`'s check and the publish continues with
the patch path, whereas the claim requires a fatal
`PatchGenerationFailure` when the artifact is absent *or empty*. -/
theorem c7_counterexample :
    generate_patch "storage-art" "D1_D2.xpatch" (some "") =
      .ok "storage-art/patches/D1_D2.xpatch" := rfl

/-- Claim C7 (amended): after the delta computation the patch artifact
must exist — absence is a fatal failure aborting the publish — but
non-emptiness is not checked: `generate_patch` succeeds exactly when a
patch file materialized, empty or not. -/
theorem c7_exists_only_check (sd n : String) (out : Option String) :
    exceptIsOk (generate_patch sd n out) = out.isSome := by
  cases out <;> rfl

/-! ## The publish pipeline (`main`) -/

/-- `"\n".join` / `"\t".join`-style concatenation. -/
def intercalateStr (sep : String) : List String → String
  | [] => ""
  | [x] => x
  | x :: rest => x ++ sep ++ intercalateStr sep rest

/-- The `upload` closure selected by mode: the dry-run closure only
prints, the offline closure writes the target path. -/
def upW (dry : Bool) (fs : DistFS) (target src : String) : DistFS :=
  if dry then fs else setKey fs target src

/-- `s[:-n]`. -/
def dropRightStr (s : String) (n : Nat) : String :=
  String.mk (s.data.take (s.data.length - n))

/-- The staging target used for the full bundle of an entry:
`<patch_folder>full/<relpath(dirname(target_rel), "files")>/<basename
minus ".<digest>">`. -/
def bundleFullTarget (pf : String) (e : Entry) : String :=
  pf ++ "full/" ++ renderPath (relpathComps e.targetRel.dropLast ["files"] ++
    [dropRightStr (e.targetRel.getLast?.getD "") (e.digest.length + 1)])

/-- State threaded through the patch and upload phases of `main`:
the distributed/staged uploads, the store's `patches/` directory, the
`patched` set, and the `patch_folder` staging path (set while processing
the immediately preceding version). -/
structure PubSt where
  dist : DistFS
  storePatches : List String
  patched : List String
  patchFolder : Option String
deriving Repr, DecidableEq

/-- One iteration of the inner patch loops of `main` for a new entry and
one entry of a prior manifest: same logical path with a different digest
produces the patch `<old>_<new>.xpatch` in the store's `patches/`
directory (`bsdiff4` always materializes the file, so the existence
assert passes), uploads it to `update/<a>/patch/`, and for the
immediately preceding version also stages it and the full file into the
bundle folders and marks the entry patched. -/
def patchPairStep (a : String) (dry : Bool) (lastVersion : Bool)
    (e old : Entry) (ps : PubSt) : PubSt :=
  if e.path = old.path ∧ e.digest ≠ old.digest then
    let pfn := old.digest ++ "_" ++ e.digest ++ ".xpatch"
    let ppath := "storage-" ++ a ++ "/patches/" ++ pfn
    let sp := if pfn ∈ ps.storePatches then ps.storePatches
      else ps.storePatches ++ [pfn]
    let d1 := upW dry ps.dist ("update/" ++ a ++ "/patch/" ++ pfn) ppath
    if lastVersion then
      match ps.patchFolder with
      | some pf =>
        let d2 := upW dry d1 pf ppath
        let d3 := upW dry d2 (bundleFullTarget pf e)
          ("storage-" ++ a ++ "/" ++ renderPath e.targetRel)
        let pt := if renderPath e.targetRel ∈ ps.patched then ps.patched
          else ps.patched ++ [renderPath e.targetRel]
        ⟨d3, sp, pt, ps.patchFolder⟩
      | none => ⟨d1, sp, ps.patched, ps.patchFolder⟩
    else ⟨d1, sp, ps.patched, ps.patchFolder⟩
  else ps

/-- One iteration of `main`'s window loop over the up-to-3 most recent
prior versions: for the last (immediately preceding) one, set up the
bundle staging folders and upload the `.update` descriptors, then run the
patch loops over all new entries against that prior manifest. -/
def patchVersionStep (a newDirStr version : String) (dry : Bool)
    (reg2 : Registry) (files : List Entry) (ps : PubSt)
    (pv : VersionRecord) : PubSt :=
  let ps1 :=
    if reg2.versions.getLast? = some pv then
      let pf := newDirStr ++ "/../__patches_" ++ pv.version ++ "_" ++
        version ++ "__"
      let d := upW dry ps.dist (pf ++ "/.update")
        (pv.version ++ "\t" ++ version)
      let d2 := upW dry d (pf ++ "full/.update")
        (pv.version ++ "\t" ++ version)
      ⟨d2, ps.storePatches, ps.patched, some pf⟩
    else ps
  files.foldl (fun acc e =>
    if e.is_new then
      pv.files.foldl (fun acc2 old =>
        patchPairStep a dry (decide (reg2.versions.getLast? = some pv))
          e old acc2) acc
    else acc) ps1

/-- One iteration of `main`'s new-file upload loop: upload each new blob
to `update/<a>/files/<digest>`, and stage files not already covered by a
patch into the full bundle. -/
def fileUploadStep (a : String) (dry : Bool) (ps : PubSt) (e : Entry) :
    PubSt :=
  if e.is_new then
    let src := "storage-" ++ a ++ "/" ++ renderPath e.targetRel
    let d1 := upW dry ps.dist ("update/" ++ a ++ "/files/" ++ e.digest) src
    match ps.patchFolder with
    | some pf =>
      if renderPath e.targetRel ∈ ps.patched then
        ⟨d1, ps.storePatches, ps.patched, ps.patchFolder⟩
      else
        let d2 := upW dry d1 (bundleFullTarget pf e) src
        let d3 := upW dry d2 pf src
        ⟨d3, ps.storePatches, ps.patched, ps.patchFolder⟩
    | none => ⟨d1, ps.storePatches, ps.patched, ps.patchFolder⟩
  else ps

/-- A publish invocation of `main` (versions assumed unique per record, so
the republish loop's single `do_remove` call is modelled directly): if
the requested version already exists, remove it first (a crash there
aborts the run with the disk at the crash point); scan the tree into the
store; diff against the last up-to-3 versions, uploading patches and
bundle staging; upload new files, the manifest and the latest pointer;
append the new version record; and save the registry only when not dry.
Archive construction is external and leaves the modelled state alone. -/
def publishRun (a : String) (newDir : List String) (version : String)
    (dry : Bool) (hash : String → String) (tree : FSNode) (w : World) :
    Except (RemoveErr × World) World :=
  let reg := w.registryFile.getD emptyRegistry
  match (if reg.versions.any (fun r => r.version == version)
      then doRemoveVersion a reg w.dist version
      else .ok (reg, w.dist)) with
  | .error ed => .error (ed.1, { w with dist := ed.2 })
  | .ok rd =>
    let scanned := handleDir hash ("storage-" ++ a) newDir tree rd.1 w.store
    let files := scanned.1
    let reg2 := scanned.2.reg
    let window := reg2.versions.drop (reg2.versions.length - 3)
    let ps1 := window.foldl
      (patchVersionStep a (renderPath newDir) version dry reg2 files)
      ⟨rd.2, w.storePatches, [], none⟩
    let ps2 := files.foldl (fileUploadStep a dry) ps1
    let manifestContent :=
      intercalateStr "\n" (files.map fun e => e.path ++ "\t" ++ e.digest)
    let d3 := upW dry ps2.dist ("update/" ++ a ++ "/manifest/" ++ version)
      manifestContent
    let d4 :=
      match ps2.patchFolder with
      | some pf =>
        upW dry (upW dry d3 (pf ++ "full/.manifest") manifestContent)
          (pf ++ "/.manifest") manifestContent
      | none => d3
    let d5 := upW dry d4 ("update/" ++ a ++ "/latest") version
    .ok { registryFile := if dry then w.registryFile
            else some { reg2 with
              versions := reg2.versions ++ [⟨version, files⟩] },
          store := scanned.2.store, storePatches := ps2.storePatches,
          dist := d5,
          saves := if dry then w.saves else w.saves + 1 }

/-- Claim C3 (code bug witness): publishing a one-file tree as version "1"
from an empty state succeeds; publishing the byte-identical tree under
the same version a second time crashes instead of reproducing the
manifest: the republish path calls `do_remove` on the existing record,
and since that record is the first published version, `prev_version` is
`None` when `prev_version["files"]` is evaluated (`TypeError`), so the
run aborts before any manifest is produced. -/
theorem c3_republish_crash :
    (match publishRun "x" ["r"] "1" false (fun s => s) (.file "f" "c" .nil)
        ⟨none, [], [], [], 0⟩ with
      | .ok w1 =>
        (match publishRun "x" ["r"] "1" false (fun s => s)
            (.file "f" "c" .nil) w1 with
          | .error ed => decide (ed.1 = RemoveErr.noPrev)
          | .ok _ => false)
      | .error _ => false) = true := rfl

/-! ## Dry-run frame lemmas -/

theorem upW_dry (fs : DistFS) (t c : String) : upW true fs t c = fs := rfl

theorem foldl_dist_eq {β : Type} (f : PubSt → β → PubSt)
    (hf : ∀ ps x, (f ps x).dist = ps.dist) :
    ∀ (l : List β) (ps : PubSt), (l.foldl f ps).dist = ps.dist := by
  intro l
  induction l with
  | nil => intro ps; rfl
  | cons x xs ih => intro ps; rw [List.foldl_cons, ih, hf]

theorem patchPairStep_dry_dist (a : String) (lv : Bool) (e old : Entry)
    (ps : PubSt) : (patchPairStep a true lv e old ps).dist = ps.dist := by
  simp only [patchPairStep, upW_dry]
  repeat first | rfl | split

theorem fileUploadStep_dry_dist (a : String) (ps : PubSt) (e : Entry) :
    (fileUploadStep a true ps e).dist = ps.dist := by
  simp only [fileUploadStep, upW_dry]
  repeat first | rfl | split

theorem patchVersionStep_dry_dist (a nd ver : String) (reg2 : Registry)
    (files : List Entry) (ps : PubSt) (pv : VersionRecord) :
    (patchVersionStep a nd ver true reg2 files ps pv).dist = ps.dist := by
  simp only [patchVersionStep, upW_dry]
  refine (foldl_dist_eq _ ?_ _ _).trans ?_
  · intro ps2 e
    dsimp only
    split
    · exact foldl_dist_eq _
        (fun ps3 old => patchPairStep_dry_dist a _ e old ps3) pv.files ps2
    · rfl
  · split <;> rfl

theorem eraseKey_sublist {α : Type} (m : List (String × α)) (k0 : String) :
    List.Sublist (eraseKey m k0) m := by
  induction m with
  | nil => simp [eraseKey]
  | cons kv rest ih =>
    obtain ⟨k1, v1⟩ := kv
    by_cases he : k1 = k0
    · simp only [eraseKey, if_pos he]
      exact List.sublist_cons_self (k1, v1) rest
    · simp only [eraseKey, if_neg he]
      exact List.Sublist.cons₂ (k1, v1) ih

theorem foldl_eraseKey_sublist {α β : Type} (g : β → String) :
    ∀ (ks : List β) (m : List (String × α)),
      List.Sublist (ks.foldl (fun acc x => eraseKey acc (g x)) m) m := by
  intro ks
  induction ks with
  | nil => intro m; exact List.Sublist.refl m
  | cons x xs ih =>
    intro m
    rw [List.foldl_cons]
    exact (ih (eraseKey m (g x))).trans (eraseKey_sublist m (g x))

/-- The distributed-namespace component of a removal outcome, crash or
success. -/
def distOfR (r : Except (RemoveErr × DistFS) (Registry × DistFS)) : DistFS :=
  match r with
  | .ok rd => rd.2
  | .error ed => ed.2

theorem doRemoveFound_dist_sublist (a : String) (reg : Registry)
    (fs : DistFS) (ver : String) (prev : Option VersionRecord)
    (v : VersionRecord) :
    List.Sublist (distOfR (doRemoveFound a reg fs ver prev v)) fs := by
  cases prev with
  | none => exact List.Sublist.refl fs
  | some p =>
    simp only [doRemoveFound]
    split
    · exact (foldl_eraseKey_sublist _ _ _).trans (eraseKey_sublist _ _)
    · split
      · exact (List.filter_sublist _).trans
          ((foldl_eraseKey_sublist _ _ _).trans (eraseKey_sublist _ _))
      · exact (List.filter_sublist _).trans
          ((foldl_eraseKey_sublist _ _ _).trans (eraseKey_sublist _ _))

theorem doRemoveGo_dist_sublist (a : String) (reg : Registry) (fs : DistFS)
    (ver : String) :
    ∀ (l : List VersionRecord) (prev : Option VersionRecord),
      List.Sublist (distOfR (doRemoveGo a reg fs ver prev l)) fs := by
  intro l
  induction l with
  | nil => intro prev; exact List.Sublist.refl fs
  | cons v rest ih =>
    intro prev
    simp only [doRemoveGo]
    split
    · split
      · exact doRemoveFound_dist_sublist a reg fs ver prev v
      · exact List.Sublist.refl fs
    · exact ih (some v)

/-- The on-disk world at the end of a publish run, whether it completed
or aborted mid-way. -/
def worldOf : Except (RemoveErr × World) World → World
  | .ok w2 => w2
  | .error ew => ew.2

/-- Claim C9: a dry publish run never reaches COMMIT and performs no real
distribution side effects through `upload`: the dry `upload` closure
leaves the upload targets untouched for every call, and however the run
ends — success or an abort inside the republish removal — the registry
file on disk is exactly as before, `save()` never runs, and the upload
targets have gained nothing (they are a sublist of what was there, only
ever shrunk by the republish `do_remove`'s direct deletions, which are
real even in dry mode). -/
theorem c9_dry_run (a : String) (newDir : List String) (version : String)
    (hash : String → String) (tree : FSNode) (w : World) :
    (∀ fs t c, upW true fs t c = fs) ∧
    (worldOf (publishRun a newDir version true hash tree w)).registryFile =
      w.registryFile ∧
    (worldOf (publishRun a newDir version true hash tree w)).saves =
      w.saves ∧
    List.Sublist (worldOf (publishRun a newDir version true hash tree w)).dist
      w.dist := by
  refine ⟨fun fs t c => rfl, ?_⟩
  simp only [publishRun]
  split
  · -- the republish removal aborted the run
    next ed heq =>
    refine ⟨rfl, rfl, ?_⟩
    by_cases hc : (w.registryFile.getD emptyRegistry).versions.any
        (fun r => r.version == version)
    · rw [if_pos hc] at heq
      have hs := doRemoveGo_dist_sublist a (w.registryFile.getD emptyRegistry)
        w.dist version (w.registryFile.getD emptyRegistry).versions none
      rw [show doRemoveGo a (w.registryFile.getD emptyRegistry) w.dist version
          none (w.registryFile.getD emptyRegistry).versions =
          doRemoveVersion a (w.registryFile.getD emptyRegistry) w.dist version
        from rfl, heq] at hs
      exact hs
    · rw [if_neg hc] at heq
      exact absurd heq (by simp)
  · -- the run completed
    next rd heq =>
    refine ⟨rfl, rfl, ?_⟩
    have hsub : List.Sublist rd.2 w.dist := by
      by_cases hc : (w.registryFile.getD emptyRegistry).versions.any
          (fun r => r.version == version)
      · rw [if_pos hc] at heq
        have hs := doRemoveGo_dist_sublist a
          (w.registryFile.getD emptyRegistry) w.dist version
          (w.registryFile.getD emptyRegistry).versions none
        rw [show doRemoveGo a (w.registryFile.getD emptyRegistry) w.dist
            version none (w.registryFile.getD emptyRegistry).versions =
            doRemoveVersion a (w.registryFile.getD emptyRegistry) w.dist
              version from rfl, heq] at hs
        exact hs
      · rw [if_neg hc] at heq
        injection heq with heq2
        rw [← heq2]
    simp only [worldOf, upW_dry]
    split
    · rw [foldl_dist_eq (fileUploadStep a true)
          (fun ps e => fileUploadStep_dry_dist a ps e),
        foldl_dist_eq _ (fun ps pv => patchVersionStep_dry_dist a
          (renderPath newDir) version _ _ ps pv)]
      exact hsub
    · rw [foldl_dist_eq (fileUploadStep a true)
          (fun ps e => fileUploadStep_dry_dist a ps e),
        foldl_dist_eq _ (fun ps pv => patchVersionStep_dry_dist a
          (renderPath newDir) version _ _ ps pv)]
      exact hsub

end Publish
